import Mathlib

/-!
Shallow embedding of the two pricing engines of `energyderivatives`:
the CRR binomial-lattice engine (`binomial_tree_options/__init__.py`)
and the Monte Carlo simulation harness (`monte_carlo_options/__init__.py`).

Modelling conventions:
* Python/numpy floats are modelled by `ℝ`; `np.exp` is `Real.exp`,
  `np.sqrt` is `Real.sqrt`.
* Python exceptions raised by a constructor or a method are modelled with
  `Except PyError`.
* A float result that has been contaminated by a division by zero
  (numpy produces `inf`/`nan` and keeps running) is modelled by the
  `PriceResult.nonNumeric` constructor; a genuinely numeric float result is
  `PriceResult.price x`; Python's `None` (the fall-through of the
  `if`/`elif` dispatch on the `type` string) is `PriceResult.pyNone`.
* In the Monte Carlo engine, payoff entries may be non-finite floats; these
  are modelled by the four-constructor type `FP` (finite / plus infinity /
  minus infinity / nan) with numpy's propagation rules for sum and mean.
-/

/-- Python exception kinds relevant to the two engines.
`configurationError` is listed so that the spec's claimed error type can be
stated; the source never raises it. -/
inductive PyError where
  | typeError : PyError
  | zeroDivisionError : PyError
  | configurationError : PyError
deriving DecidableEq

/-- Result of `CRRBinomialTreeOption._calc_price`:
either a numeric float price, a non-numeric float (Inf/NaN contamination
of the European backward induction by the division
`(exp(b*dt) - d)/(u - d)` when `u - d = 0`), or
Python `None` (no branch of the `if`/`elif` on `type` matched). -/
inductive PriceResult where
  | price : ℝ → PriceResult
  | nonNumeric : PriceResult
  | pyNone : PriceResult

/-- The `CRRBinomialTreeOption` object: `__init__` stores the given
parameters on the instance, performing no validation whatsoever. -/
structure CRRBinomialTreeOption where
  S : ℝ
  K : ℝ
  t : ℝ
  r : ℝ
  b : ℝ
  sigma : ℝ
  type : String
  n : ℕ

namespace CRRBinomialTreeOption

/-- Local `dt = self._t / n` of `_calc_price`. -/
noncomputable def dt (o : CRRBinomialTreeOption) : ℝ := o.t / o.n

/-- Local `u = np.exp(self._sigma * np.sqrt(dt))` of `_calc_price`. -/
noncomputable def u (o : CRRBinomialTreeOption) : ℝ :=
  Real.exp (o.sigma * Real.sqrt (dt o))

/-- Local `d = 1 / u` of `_calc_price`. -/
noncomputable def d (o : CRRBinomialTreeOption) : ℝ := 1 / u o

/-- Local `p = (np.exp(self._b * dt) - d) / (u - d)` of `_calc_price`
(the value of the division when the denominator is nonzero; the
zero-denominator case is handled in `_calc_price` itself). -/
noncomputable def p (o : CRRBinomialTreeOption) : ℝ :=
  (Real.exp (o.b * dt o) - d o) / (u o - d o)

/-- Local `Df = np.exp(-self._r * dt)` of `_calc_price`. -/
noncomputable def Df (o : CRRBinomialTreeOption) : ℝ :=
  Real.exp (-o.r * dt o)

end CRRBinomialTreeOption

/-- Terminal payoff array of `_calc_price`, as a function of the node
index `i`:
`OptionValue = z * (S * u ** arange(0, n+1) * d ** arange(n, -1, -1) - K)`
followed by `OptionValue = (abs(OptionValue) + OptionValue) / 2`.
Index `i` carries exponent `i` on `u` and exponent `n - i` on `d`.
Values at indices above `n` are never read by the loops. -/
noncomputable def payoff0 (z S u d K : ℝ) (n : ℕ) : ℕ → ℝ :=
  fun i =>
    (|z * (S * u ^ i * d ^ (n - i) - K)| + z * (S * u ^ i * d ^ (n - i) - K)) / 2

/-- One inner sweep of `_euro` at step `j`: node `i` is overwritten with
`(p * OptionValue[i+1] + (1-p) * OptionValue[i]) * Df` for `i = 0..j`,
other entries are left alone.  The Python loop updates in place with `i`
ascending, so the read of `OptionValue[i+1]` always sees the value from the
previous step; the simultaneous update below is therefore exact. -/
noncomputable def euroSweep (p Df : ℝ) (j : ℕ) (OV : ℕ → ℝ) : ℕ → ℝ :=
  fun i => if i ≤ j then (p * OV (i + 1) + (1 - p) * OV i) * Df else OV i

/-- One inner sweep of `_amer` at step `j`: node `i` is overwritten with
`max(z * (S * u**i * d**abs(i - j) - K),
     (p * OptionValue[i+1] + (1-p) * OptionValue[i]) * Df)`
for `i = 0..j`.  As in `euroSweep`, the in-place ascending update reads
only not-yet-overwritten entries, so the simultaneous form is exact. -/
noncomputable def amerSweep (p Df K d S u z : ℝ) (j : ℕ) (OV : ℕ → ℝ) : ℕ → ℝ :=
  fun i =>
    if i ≤ j then
      max (z * (S * u ^ i * d ^ ((i : ℤ) - (j : ℤ)).natAbs - K))
        ((p * OV (i + 1) + (1 - p) * OV i) * Df)
    else OV i

/-- The outer loop `for j in np.arange(0, n)[::-1]` shared by `_euro` and
`_amer`, indexed by the number `k` of sweeps already performed: the
`(k+1)`-th sweep runs at step `j = n - 1 - k`, so `sweepSeq sw n OV n` is
the state after sweeps `j = n-1, n-2, ..., 0`. -/
noncomputable def sweepSeq (sw : ℕ → (ℕ → ℝ) → ℕ → ℝ) (n : ℕ) (OV : ℕ → ℝ) : ℕ → ℕ → ℝ
  | 0 => OV
  | k + 1 => sw (n - 1 - k) (sweepSeq sw n OV k)

namespace CRRBinomialTreeOption

/-- `self._euro(OptionValue, n, Df, p)[0]` on the terminal payoff array:
the European price computed by `_calc_price`. -/
noncomputable def euroPriceCore (o : CRRBinomialTreeOption) (z : ℝ) : ℝ :=
  sweepSeq (euroSweep (p o) (Df o)) o.n
    (payoff0 z o.S (u o) (d o) o.K o.n) o.n 0

/-- `self._amer(OptionValue, n, Df, p, K, d, S, u, z)[0]` on the terminal
payoff array: the American price computed by `_calc_price`. -/
noncomputable def amerPriceCore (o : CRRBinomialTreeOption) (z : ℝ) : ℝ :=
  sweepSeq (amerSweep (p o) (Df o) o.K (d o) o.S (u o) z) o.n
    (payoff0 z o.S (u o) (d o) o.K o.n) o.n 0

/-- `_calc_price(z, n, type)`.
With `n = 0` the first statement `dt = self._t / n` raises
`ZeroDivisionError`.  When `u - d = 0` (so for `sigma = 0`, and also for
`t <= 0` where numpy's `sqrt` yields `nan`), `p = x / 0.0` is
`inf`/`-inf`/`nan`, so every continuation value
`(p*OptionValue[i+1] + (1-p)*OptionValue[i]) * Df` computed on the
finite node values is non-finite (never `+inf`, since at `u = d = 1` the
two node values carry the same sign through every sweep).  In the
European branch these non-finite continuations overwrite every node, so
`_euro(...)[0]` is `nan`: non-numeric.  In the American branch Python's
builtin `max(a, b)` returns `b` only when `b > a`, which is false for a
`nan` or `-inf` continuation, so every swept node keeps its finite
intrinsic first argument `z*(S*u^i*d^|i-j| - K) = z*(S - K)`; the root
value returned is the finite, undiscounted `z*(S - K)`.
When the `type` string matches neither branch, the Python function falls
through and returns `None`. -/
noncomputable def _calc_price (o : CRRBinomialTreeOption) (z : ℝ) :
    Except PyError PriceResult :=
  if o.n = 0 then Except.error PyError.zeroDivisionError
  else if o.type = "european" then
    if u o - d o = 0 then Except.ok PriceResult.nonNumeric
    else Except.ok (PriceResult.price (euroPriceCore o z))
  else if o.type = "american" then
    if u o - d o = 0 then Except.ok (PriceResult.price (z * (o.S - o.K)))
    else Except.ok (PriceResult.price (amerPriceCore o z))
  else Except.ok PriceResult.pyNone

/-- `call()`: `z = 1; return self._calc_price(z, self._n, self._type)`. -/
noncomputable def call (o : CRRBinomialTreeOption) : Except PyError PriceResult :=
  _calc_price o 1

/-- `put()`: `z = -1; return self._calc_price(z, self._n, self._type)`. -/
noncomputable def put (o : CRRBinomialTreeOption) : Except PyError PriceResult :=
  _calc_price o (-1)

end CRRBinomialTreeOption

/-- An innovation batch: a numpy array of shape `(paths, steps)`,
modelled as a list of rows (one row per path). -/
abbrev Mat := List (List ℝ)

/-- Flattening of a batch, as in numpy aggregate reductions over all
entries of the array. -/
def matFlat (m : Mat) : List ℝ := m.flatten

/-- `np.mean(eps)`: the aggregate sample mean over all entries. -/
noncomputable def npMeanM (m : Mat) : ℝ :=
  (matFlat m).sum / (matFlat m).length

/-- `np.std(eps)`: numpy population standard deviation (`ddof = 0`),
`sqrt(mean((x - mean(x))**2))` over all entries. -/
noncomputable def npStdM (m : Mat) : ℝ :=
  Real.sqrt (((matFlat m).map (fun x => (x - npMeanM m) ^ 2)).sum /
    (matFlat m).length)

/-- `-eps`: elementwise negation of a batch. -/
def negMat (m : Mat) : Mat := m.map (List.map (fun x => -x))

/-- `eps = np.concatenate((eps, -eps))` when `self._antithetic` is set:
row (paths-axis) concatenation of the batch with its negation. -/
def antiStep (anti : Bool) (eps : Mat) : Mat :=
  if anti then eps ++ negMat eps else eps

/-- `eps = (eps - np.mean(eps)) / np.std(eps)`: the standardization
transform applied when `self._standardization` is set. -/
noncomputable def standardize (m : Mat) : Mat :=
  m.map (List.map (fun x => (x - npMeanM m) / npStdM m))

/-- The standardization branch of the loop body. -/
noncomputable def stdStep (std : Bool) (eps : Mat) : Mat :=
  if std then standardize eps else eps

/-- The innovation batch handed to the `Path` constructor in loop `i` of
`_sim_mc`: the fresh draw `self._Innovation.sample_innovation()` (the `i`-th
call to the sampler is modelled by `draw i`), then the antithetic step,
then the standardization step. -/
noncomputable def loopEps (draw : ℕ → Mat) (anti std : Bool) (i : ℕ) : Mat :=
  stdStep std (antiStep anti (draw i))

/-- A float that may be non-finite, with numpy semantics: `fin x` is an
ordinary float, `pinf`/`minf` are the infinities, `nan` is not-a-number. -/
inductive FP where
  | fin : ℝ → FP
  | pinf : FP
  | minf : FP
  | nan : FP

/-- Float addition with numpy propagation: `nan` absorbs, opposite
infinities give `nan`, an infinity absorbs finite values. -/
noncomputable def FP.add : FP → FP → FP
  | FP.nan, _ => FP.nan
  | _, FP.nan => FP.nan
  | FP.pinf, FP.minf => FP.nan
  | FP.minf, FP.pinf => FP.nan
  | FP.pinf, _ => FP.pinf
  | _, FP.pinf => FP.pinf
  | FP.minf, _ => FP.minf
  | _, FP.minf => FP.minf
  | FP.fin a, FP.fin b => FP.fin (a + b)

/-- Division of a float by a (positive) integer count: the class of the
value is preserved. Only used with a nonzero count. -/
noncomputable def FP.divNat : FP → ℕ → FP
  | FP.fin a, m => FP.fin (a / m)
  | FP.pinf, _ => FP.pinf
  | FP.minf, _ => FP.minf
  | FP.nan, _ => FP.nan

/-- The test `tmp == np.inf` of `_sim_mc`: true exactly for `+inf`
(false for `nan`, since `nan == x` is always false, and for `-inf`). -/
def FP.isPinf : FP → Bool
  | FP.pinf => true
  | _ => false

/-- `np.sum` of a payoff vector, with numpy float propagation. -/
noncomputable def npSumFP (l : List FP) : FP :=
  l.foldr FP.add (FP.fin 0)

/-- `np.mean` of a payoff vector: `nan` on an empty vector (numpy's
`0/0`), otherwise the sum divided by the length. -/
noncomputable def npMeanFP (l : List FP) : FP :=
  match l with
  | [] => FP.nan
  | _ => (npSumFP l).divNat l.length

/-- Result of `_sim_mc`: either the `iteration` array of per-loop mean
payoffs (length `mc_loops` on completion) or the early-return tuple
`(eps, path, payoff)` produced when a loop's mean equals `+inf`. -/
inductive MCResult (π : Type) where
  | iteration : List FP → MCResult π
  | diverged : Mat → π → List FP → MCResult π

/-- The `for i in range(self._mc_loops)` loop of `_sim_mc`.
`pf` composes the caller-supplied `Path` constructor output with the
requested side of the caller-supplied `Payoff`; `rem` counts the remaining
loops, `i` is the current loop index, `acc` holds the `iteration` entries
filled so far and `log` the lines printed by the trace branch (loop index,
per-loop estimate `iteration[i]`, running mean `np.sum(iteration)/(i+1)`;
entries of `iteration` beyond `i` are still zero, so that sum is the sum of
the filled prefix). -/
noncomputable def simLoop {π : Type} (pf : π → List FP) (pathOf : Mat → π)
    (draw : ℕ → Mat) (anti std trace : Bool) :
    ℕ → ℕ → List FP → List (ℕ × FP × FP) → MCResult π × List (ℕ × FP × FP)
  | 0, _, acc, log => (MCResult.iteration acc, log)
  | rem + 1, i, acc, log =>
    let eps := loopEps draw anti std i
    let path := pathOf eps
    let payoff := pf path
    let tmp := npMeanFP payoff
    if tmp.isPinf then (MCResult.diverged eps path payoff, log)
    else
      simLoop pf pathOf draw anti std trace rem (i + 1) (acc ++ [tmp])
        (if trace then
          log ++ [(i, tmp, (npSumFP (acc ++ [tmp])).divNat (i + 1))]
        else log)

/-- `_sim_mc(call)`: runs `mc_loops` loops from index 0 with an empty
`iteration` array and an empty trace, selecting the `call` or `put` method
of the payoff capability.  `call()` is `simMC ... true`, `put()` is
`simMC ... false`. -/
noncomputable def simMC {π : Type} (mcLoops : ℕ) (draw : ℕ → Mat)
    (anti std trace : Bool) (pathOf : Mat → π) (pfCall pfPut : π → List FP)
    (callFlag : Bool) : MCResult π × List (ℕ × FP × FP) :=
  simLoop (fun pa => if callFlag then pfCall pa else pfPut pa)
    pathOf draw anti std trace mcLoops 0 [] []

/-- The `MonteCarloOption` object as built by `__init__`: every argument
is stored unvalidated; `dt` is computed as `t / path_length`; the
`Innovation` class is instantiated as `Innovation(mc_paths, path_length,
eps)`; the `Path` and `Payoff` classes are stored as given (possibly
absent). -/
structure MonteCarloOption (α β γ : Type) where
  mc_loops : ℤ
  path_length : ℤ
  mc_paths : ℤ
  S : ℝ
  K : ℝ
  t : ℝ
  r : ℝ
  b : ℝ
  sigma : Option ℝ
  dt : ℝ
  innovationInstance : α
  PathCls : Option β
  PayoffCls : Option γ
  trace : Bool
  antithetic : Bool
  standardization : Bool
  eps : Option Mat

/-- `MonteCarloOption.__init__`.  No argument is validated: the only ways
construction can fail are the statement `self._dt = t / path_length`
(a `ZeroDivisionError` when `path_length == 0`) and the statement
`self._Innovation = Innovation(mc_paths, path_length, eps)` (a `TypeError`
when no `Innovation` class was supplied, since `None` is then called).
`InnovationCls` models the class: a constructor taking
`(mc_paths, path_length, eps)`. -/
noncomputable def mkMonteCarloOption {α β γ : Type} (mc_loops path_length mc_paths : ℤ)
    (S K t r b : ℝ) (sigma : Option ℝ)
    (InnovationCls : Option (ℤ → ℤ → Option Mat → α))
    (PathCls : Option β) (PayoffCls : Option γ)
    (trace antithetic standardization : Bool) (eps : Option Mat) :
    Except PyError (MonteCarloOption α β γ) :=
  if path_length = 0 then Except.error PyError.zeroDivisionError
  else
    match InnovationCls with
    | none => Except.error PyError.typeError
    | some cls =>
      Except.ok
        ⟨mc_loops, path_length, mc_paths, S, K, t, r, b, sigma,
          t / (path_length : ℝ), cls mc_paths path_length eps,
          PathCls, PayoffCls, trace, antithetic, standardization, eps⟩

/-- One backward-induction step as the specification words it
(section 4.1 step 3 with the section 3 `LatticeState`): from an array of
length `j+2` produce the array of length `j+1` whose entry `i` is
`discount * (p * value[i+1] + (1 - p) * value[i])`. -/
noncomputable def specStep (p Df : ℝ) : List ℝ → List ℝ
  | x :: y :: rest => (Df * (p * y + (1 - p) * x)) :: specStep p Df (y :: rest)
  | _ => []

/-- The European lattice price exactly as specified: `dt = t/n`,
`u = exp(sigma*sqrt(dt))`, `d = 1/u`, `p = (exp(b*dt) - d)/(u - d)`,
per-step discount `exp(-r*dt)`, terminal payoff
`max(z*(S*u^i*d^(n-i) - K), 0)` for `i = 0..n`, then `n` backward steps
each shrinking the array by one, returning `value[0]`. -/
noncomputable def specEuroPrice (S K t r b sigma : ℝ) (n : ℕ) (z : ℝ) : ℝ :=
  let dt := t / n
  let u := Real.exp (sigma * Real.sqrt dt)
  let d := 1 / u
  let p := (Real.exp (b * dt) - d) / (u - d)
  let Df := Real.exp (-r * dt)
  ((specStep p Df)^[n]
    (List.ofFn (fun i : Fin (n + 1) =>
      max (z * (S * u ^ (i : ℕ) * d ^ (n - (i : ℕ)) - K)) 0))).headD 0

/-- Helper: `headD` is `getD` at index 0. -/
theorem List.headD_eq_getD_zero (l : List ℝ) : l.headD 0 = l.getD 0 0 := by
  cases l <;> rfl

/-- Helper: the source's branch-free clamp `(abs(x) + x) / 2` equals
`max x 0`. -/
theorem abs_add_self_div_two (x : ℝ) : (|x| + x) / 2 = max x 0 := by
  rcases le_total x 0 with h | h
  · rw [abs_of_nonpos h, max_eq_right h]
    ring
  · rw [abs_of_nonneg h, max_eq_left h]
    ring

/-- C10 counterexample: the claim quantifies over every parameter set, but
with `n = 0` the statement `dt = self._t / n` raises `ZeroDivisionError`
before the `type` dispatch is reached, so `call()` does not return `None`
for the invalid type string `"banana"`. -/
theorem C10_counterexample :
    CRRBinomialTreeOption.call
        (CRRBinomialTreeOption.mk 1 1 1 0 0 1 "banana" 0) =
      Except.error PyError.zeroDivisionError ∧
    CRRBinomialTreeOption.call
        (CRRBinomialTreeOption.mk 1 1 1 0 0 1 "banana" 0) ≠
      Except.ok PriceResult.pyNone := by
  refine ⟨rfl, fun h => ?_⟩
  rw [show CRRBinomialTreeOption.call
      (CRRBinomialTreeOption.mk 1 1 1 0 0 1 "banana" 0) =
      Except.error PyError.zeroDivisionError from rfl] at h
  exact Except.noConfusion h

/-- C10 (amended): for every parameter set with `n ≥ 1`, constructing with
a `type` string that is neither `"european"` nor `"american"` makes
`call()` and `put()` fall through the `if`/`elif` dispatch and return
Python `None`, with no exception raised and no price computed; the
amendment excludes `n = 0`, where `dt = t / n` raises `ZeroDivisionError`
first. -/
theorem C10_invalid_type_returns_none (S K t r b sigma : ℝ) (ty : String)
    (n : ℕ) (hn : 1 ≤ n) (he : ty ≠ "european") (ha : ty ≠ "american") :
    CRRBinomialTreeOption.call (CRRBinomialTreeOption.mk S K t r b sigma ty n) =
      Except.ok PriceResult.pyNone ∧
    CRRBinomialTreeOption.put (CRRBinomialTreeOption.mk S K t r b sigma ty n) =
      Except.ok PriceResult.pyNone := by
  have hn0 : n ≠ 0 := by omega
  constructor <;>
    simp [CRRBinomialTreeOption.call, CRRBinomialTreeOption.put,
      CRRBinomialTreeOption._calc_price, hn0, he, ha]

/-- C10 witness: concrete invalid type string with `n = 1`. -/
theorem C10_witness :
    (1 : ℕ) ≤ 1 ∧ ("x" : String) ≠ "european" ∧ ("x" : String) ≠ "american" ∧
    CRRBinomialTreeOption.call (CRRBinomialTreeOption.mk 1 1 1 0 0 1 "x" 1) =
      Except.ok PriceResult.pyNone :=
  ⟨le_refl 1, by decide, by decide,
    (C10_invalid_type_returns_none 1 1 1 0 0 1 "x" 1 (le_refl 1)
      (by decide) (by decide)).1⟩

/-- Helper: with `sigma = 0` the up factor is `exp(0) = 1`, the down
factor is `1`, and the denominator `u - d` of the risk-neutral probability
is exactly zero. -/
theorem u_sub_d_zero_of_sigma_zero (S K t r b : ℝ) (ty : String) (n : ℕ) :
    CRRBinomialTreeOption.u (CRRBinomialTreeOption.mk S K t r b 0 ty n) -
      CRRBinomialTreeOption.d (CRRBinomialTreeOption.mk S K t r b 0 ty n) = 0 := by
  simp [CRRBinomialTreeOption.u, CRRBinomialTreeOption.d]

/-- C3 counterexample: at `S = 1, K = 1, t = 1, r = 0, b = 0, sigma = 0,
n = 1`, the discounted intrinsic value at the deterministic forward price
`S*exp(b*t) = 1` is `exp(-r*t)*max(S*exp(b*t) - K, 0) = 0`, but
`call()` divides by `u - d = 0` and returns a non-numeric (`inf`/`nan`)
float, not `0`: the `sigma = 0` lattice is not numerically stable and does
not equal the discounted intrinsic value. -/
theorem C3_counterexample :
    CRRBinomialTreeOption.call
        (CRRBinomialTreeOption.mk 1 1 1 0 0 0 "european" 1) =
      Except.ok PriceResult.nonNumeric ∧
    CRRBinomialTreeOption.call
        (CRRBinomialTreeOption.mk 1 1 1 0 0 0 "european" 1) ≠
      Except.ok (PriceResult.price 0) := by
  have hud := u_sub_d_zero_of_sigma_zero 1 1 1 0 0 "european" 1
  have hc : CRRBinomialTreeOption.call
      (CRRBinomialTreeOption.mk 1 1 1 0 0 0 "european" 1) =
      Except.ok PriceResult.nonNumeric := by
    simp [CRRBinomialTreeOption.call, CRRBinomialTreeOption._calc_price, hud]
  refine ⟨hc, fun h => ?_⟩
  rw [hc] at h
  simp at h

/-- C3 (amended): for every parameter set with `sigma = 0` and `n ≥ 1`,
the lattice degenerates to `u = d = 1` and the risk-neutral probability
divides by `u - d = 0`.  The European price is then non-numeric
(`nan`), while the American price is the finite but undiscounted raw
intrinsic `z*(S - K)` at the root (Python's `max` keeps its finite
first argument over a `nan`/`-inf` continuation).  In neither case is
the result the discounted intrinsic value at the deterministic forward
price `S*exp(b*t)`. -/
theorem C3_sigma_zero_divides_by_zero (S K t r b : ℝ) (n : ℕ)
    (hn : 1 ≤ n) :
    CRRBinomialTreeOption.call
        (CRRBinomialTreeOption.mk S K t r b 0 "european" n) =
      Except.ok PriceResult.nonNumeric ∧
    CRRBinomialTreeOption.put
        (CRRBinomialTreeOption.mk S K t r b 0 "european" n) =
      Except.ok PriceResult.nonNumeric ∧
    CRRBinomialTreeOption.call
        (CRRBinomialTreeOption.mk S K t r b 0 "american" n) =
      Except.ok (PriceResult.price (S - K)) ∧
    CRRBinomialTreeOption.put
        (CRRBinomialTreeOption.mk S K t r b 0 "american" n) =
      Except.ok (PriceResult.price (K - S)) := by
  have hn0 : n ≠ 0 := by omega
  have hudE := u_sub_d_zero_of_sigma_zero S K t r b "european" n
  have hudA := u_sub_d_zero_of_sigma_zero S K t r b "american" n
  refine ⟨?_, ?_, ?_, ?_⟩ <;>
    simp [CRRBinomialTreeOption.call, CRRBinomialTreeOption.put,
      CRRBinomialTreeOption._calc_price, hn0, hudE, hudA]

/-- C3 witness for the amended statement: at `sigma = 0` the European
call is non-numeric, and the American put at `S = 2, K = 1` returns the
finite raw intrinsic `1 - 2 = -1` (not the discounted forward intrinsic,
which would be `0`). -/
theorem C3_witness :
    (1 : ℕ) ≤ 1 ∧
    CRRBinomialTreeOption.call
        (CRRBinomialTreeOption.mk 1 1 1 0 0 0 "european" 1) =
      Except.ok PriceResult.nonNumeric ∧
    CRRBinomialTreeOption.put
        (CRRBinomialTreeOption.mk 2 1 1 0 0 0 "american" 1) =
      Except.ok (PriceResult.price ((1 : ℝ) - 2)) :=
  ⟨le_refl 1,
    (C3_sigma_zero_divides_by_zero 1 1 1 0 0 1 (le_refl 1)).1,
    (C3_sigma_zero_divides_by_zero 2 1 1 0 0 1 (le_refl 1)).2.2.2⟩

/-- C2 counterexample: constructing `MonteCarloOption` with non-positive
`mc_loops = 0` and `mc_paths = 0` (all three capabilities supplied)
succeeds, and constructing `CRRBinomialTreeOption` with non-positive
`n = 0` succeeds and stores `n = 0`; no `ConfigurationError` is raised
before computation, contrary to the claim. -/
theorem C2_counterexample :
    (@mkMonteCarloOption Unit Unit Unit 0 1 0 1 1 1 0 0 none
        (some (fun _ _ _ => ())) (some ()) (some ())
        false false false none).isOk = true ∧
    (CRRBinomialTreeOption.mk 1 1 1 0 0 1 "european" 0).n = 0 :=
  ⟨rfl, rfl⟩

/-- C2 (amended): neither constructor validates its arguments and no
`ConfigurationError` exists.  `CRRBinomialTreeOption.__init__` stores
every argument (including a non-positive `n`) and always succeeds;
`MonteCarloOption.__init__` never raises `ConfigurationError`: it fails
with `ZeroDivisionError` when `path_length = 0` (at `dt = t /
path_length`), with `TypeError` when the `Innovation` capability is
missing (calling `None`), and otherwise succeeds even for non-positive
`mc_loops`/`mc_paths` and missing `Path`/`Payoff` capabilities; a
lattice `n = 0` is accepted at construction and fails only at pricing
time, with `ZeroDivisionError` at `dt = t / n` — again not
`ConfigurationError`. -/
theorem C2_no_configuration_error {α β γ : Type}
    (mc_loops path_length mc_paths : ℤ) (S K t r b : ℝ) (sigma : Option ℝ)
    (Inno : Option (ℤ → ℤ → Option Mat → α)) (PathCls : Option β)
    (PayoffCls : Option γ) (tr an st : Bool) (eps : Option Mat)
    (Sc Kc tc rc bc sc : ℝ) (ty : String) (n : ℕ) (z : ℝ) :
    (CRRBinomialTreeOption.mk Sc Kc tc rc bc sc ty n).n = n ∧
    (CRRBinomialTreeOption.mk Sc Kc tc rc bc sc ty n).type = ty ∧
    mkMonteCarloOption mc_loops path_length mc_paths S K t r b sigma Inno
        PathCls PayoffCls tr an st eps ≠
      Except.error PyError.configurationError ∧
    (path_length = 0 →
      mkMonteCarloOption mc_loops path_length mc_paths S K t r b sigma Inno
          PathCls PayoffCls tr an st eps =
        Except.error PyError.zeroDivisionError) ∧
    (path_length ≠ 0 → Inno = none →
      mkMonteCarloOption mc_loops path_length mc_paths S K t r b sigma Inno
          PathCls PayoffCls tr an st eps =
        Except.error PyError.typeError) ∧
    (path_length ≠ 0 → ∀ cls, Inno = some cls →
      (mkMonteCarloOption mc_loops path_length mc_paths S K t r b sigma Inno
          PathCls PayoffCls tr an st eps).isOk = true) ∧
    CRRBinomialTreeOption._calc_price
        (CRRBinomialTreeOption.mk Sc Kc tc rc bc sc ty 0) z =
      Except.error PyError.zeroDivisionError := by
  refine ⟨rfl, rfl, ?_, ?_, ?_, ?_, ?_⟩
  · by_cases hp : path_length = 0
    · simp [mkMonteCarloOption, hp]
    · cases Inno <;> simp [mkMonteCarloOption, hp]
  · intro hp
    simp [mkMonteCarloOption, hp]
  · intro hp hi
    subst hi
    simp [mkMonteCarloOption, hp]
  · intro hp cls hi
    subst hi
    simp [mkMonteCarloOption, hp, Except.isOk, Except.toBool]
  · simp [CRRBinomialTreeOption._calc_price]

/-- C2 witness: concrete instantiations of the amended statement — a zero
`path_length` raises `ZeroDivisionError`, a missing `Innovation` class
raises `TypeError`, and a fully-supplied configuration with non-positive
`mc_loops` is accepted. -/
theorem C2_witness :
    (@mkMonteCarloOption Unit Unit Unit 0 0 5 1 1 1 0 0 none
        (some (fun _ _ _ => ())) (some ()) (some ())
        false false false none) = Except.error PyError.zeroDivisionError ∧
    (@mkMonteCarloOption Unit Unit Unit 5 30 5 1 1 1 0 0 none
        none (some ()) (some ())
        false false false none) = Except.error PyError.typeError ∧
    (@mkMonteCarloOption Unit Unit Unit (-2) 30 5 1 1 1 0 0 none
        (some (fun _ _ _ => ())) (some ()) (some ())
        false false false none).isOk = true := by
  refine ⟨?_, ?_, ?_⟩
  · exact (C2_no_configuration_error 0 0 5 1 1 1 0 0 none
      (some (fun _ _ _ => ())) (some ()) (some ()) false false false none
      1 1 1 0 0 1 "european" 1 1).2.2.2.1 rfl
  · exact (C2_no_configuration_error 5 30 5 1 1 1 0 0 none
      none (some ()) (some ()) false false false none
      1 1 1 0 0 1 "european" 1 1).2.2.2.2.1 (by decide) rfl
  · exact (C2_no_configuration_error (-2) 30 5 1 1 1 0 0 none
      (some (fun _ _ _ => ())) (some ()) (some ()) false false false none
      1 1 1 0 0 1 "european" 1 1).2.2.2.2.2.1 (by decide)
      (fun _ _ _ => ()) rfl

/-- Helper: if every loop before `k` has a mean payoff other than `+inf`
and loop `k`'s mean payoff is `+inf`, `_sim_mc` returns the diagnostic
tuple of loop `k`. -/
theorem simLoop_diverges_at {π : Type} (pf : π → List FP) (pathOf : Mat → π)
    (draw : ℕ → Mat) (anti std trace : Bool) :
    ∀ (rem i k : ℕ) (acc : List FP) (log : List (ℕ × FP × FP)),
      i ≤ k → k < i + rem →
      (∀ j, i ≤ j → j < k →
        (npMeanFP (pf (pathOf (loopEps draw anti std j)))).isPinf = false) →
      (npMeanFP (pf (pathOf (loopEps draw anti std k)))).isPinf = true →
      (simLoop pf pathOf draw anti std trace rem i acc log).1 =
        MCResult.diverged (loopEps draw anti std k)
          (pathOf (loopEps draw anti std k))
          (pf (pathOf (loopEps draw anti std k))) := by
  intro rem
  induction rem with
  | zero => intro i k acc log hik hk _ _; omega
  | succ rem ih =>
    intro i k acc log hik hk hbefore hdiv
    by_cases hieq : i = k
    · subst hieq
      simp only [simLoop, hdiv]
      rfl
    · have hlt : i < k := by omega
      have hnot := hbefore i le_rfl hlt
      simp only [simLoop, hnot]
      exact ih (i + 1) k _ _ (by omega) (by omega)
        (fun j hj1 hj2 => hbefore j (by omega) hj2) hdiv

/-- C1 counterexample: a loop whose mean payoff is `nan` (a non-finite
value) does **not** abort the run: the divergence test is `tmp ==
np.inf`, which is false for `nan` (and for `-inf`).  With `mc_loops = 1`
and a payoff evaluator returning `[nan]`, `call()` returns the numeric
`iteration` array `[nan]` of full length 1, not the diagnostic tuple. -/
theorem C1_counterexample :
    (@simMC Unit 1 (fun _ => [[0]]) false false false (fun _ => ())
        (fun _ => [FP.nan]) (fun _ => [FP.nan]) true).1 =
      MCResult.iteration [FP.nan] ∧
    (@simMC Unit 1 (fun _ => [[0]]) false false false (fun _ => ())
        (fun _ => [FP.nan]) (fun _ => [FP.nan]) true).1 ≠
      MCResult.diverged [[0]] () [FP.nan] := by
  refine ⟨rfl, fun h => ?_⟩
  rw [show (@simMC Unit 1 (fun _ => [[0]]) false false false (fun _ => ())
      (fun _ => [FP.nan]) (fun _ => [FP.nan]) true).1 =
      MCResult.iteration [FP.nan] from rfl] at h
  exact MCResult.noConfusion h

/-- C1 (amended): the run aborts at loop `k` with the diagnostic tuple
`(eps, path, payoff)` exactly when loop `k`'s mean payoff equals `+inf`
(the test is `tmp == np.inf`) and no earlier loop's mean equalled `+inf`;
a mean of `nan` or `-inf` is stored in the `iteration` array and the run
continues. -/
theorem C1_divergence_abort_on_pinf {π : Type} (mcLoops : ℕ)
    (draw : ℕ → Mat) (anti std trace : Bool) (pathOf : Mat → π)
    (pfCall pfPut : π → List FP) (side : Bool) (k : ℕ) (hk : k < mcLoops)
    (hbefore : ∀ j, j < k →
      (npMeanFP (if side then pfCall (pathOf (loopEps draw anti std j))
        else pfPut (pathOf (loopEps draw anti std j)))).isPinf = false)
    (hdiv : (npMeanFP (if side then pfCall (pathOf (loopEps draw anti std k))
      else pfPut (pathOf (loopEps draw anti std k)))).isPinf = true) :
    (simMC mcLoops draw anti std trace pathOf pfCall pfPut side).1 =
      MCResult.diverged (loopEps draw anti std k)
        (pathOf (loopEps draw anti std k))
        (if side then pfCall (pathOf (loopEps draw anti std k))
          else pfPut (pathOf (loopEps draw anti std k))) :=
  simLoop_diverges_at
    (fun pa => if side then pfCall pa else pfPut pa) pathOf draw anti std
    trace mcLoops 0 k [] [] (Nat.zero_le k) (by omega)
    (fun j _ hj2 => hbefore j hj2) hdiv

/-- C1 witness: a payoff evaluator returning `+inf` at loop 0 aborts a
one-loop run with the diagnostic tuple. -/
theorem C1_witness :
    (0 : ℕ) < 1 ∧ (npMeanFP [FP.pinf]).isPinf = true ∧
    (@simMC Unit 1 (fun _ => [[0]]) false false false (fun _ => ())
        (fun _ => [FP.pinf]) (fun _ => [FP.minf]) true).1 =
      MCResult.diverged [[0]] () [FP.pinf] :=
  ⟨Nat.zero_lt_one, rfl,
    C1_divergence_abort_on_pinf 1 (fun _ => [[0]]) false false false
      (fun _ => ()) (fun _ => [FP.pinf]) (fun _ => [FP.minf]) true 0
      Nat.zero_lt_one (fun j hj => absurd hj (Nat.not_lt_zero j)) rfl⟩

/-- Helper: the numeric result of `simLoop` does not depend on the trace
flag or on the trace lines accumulated so far. -/
theorem simLoop_result_trace_free {π : Type} (pf : π → List FP)
    (pathOf : Mat → π) (draw : ℕ → Mat) (anti std : Bool) (t1 t2 : Bool) :
    ∀ (rem i : ℕ) (acc : List FP) (log1 log2 : List (ℕ × FP × FP)),
      (simLoop pf pathOf draw anti std t1 rem i acc log1).1 =
        (simLoop pf pathOf draw anti std t2 rem i acc log2).1 := by
  intro rem
  induction rem with
  | zero => intro i acc log1 log2; rfl
  | succ rem ih =>
    intro i acc log1 log2
    cases hdiv : (npMeanFP (pf (pathOf (loopEps draw anti std i)))).isPinf with
    | true => simp [simLoop, hdiv]
    | false =>
      simp only [simLoop, hdiv, Bool.false_eq_true, if_false]
      exact ih (i + 1) _ _ _

/-- C9: the array returned by `call()`/`put()` with `trace=True` is
identical to the one returned with `trace=False` for the same innovation
draws and capabilities: the trace branch only prints (here: only extends
the trace log), it never changes the numeric result. -/
theorem C9_trace_observability_only {π : Type} (mcLoops : ℕ)
    (draw : ℕ → Mat) (anti std : Bool) (pathOf : Mat → π)
    (pfCall pfPut : π → List FP) (side : Bool) :
    (simMC mcLoops draw anti std true pathOf pfCall pfPut side).1 =
      (simMC mcLoops draw anti std false pathOf pfCall pfPut side).1 :=
  simLoop_result_trace_free
    (fun pa => if side then pfCall pa else pfPut pa) pathOf draw anti std
    true false mcLoops 0 [] [] []

/-- C8: with antithetic enabled (and standardization off, so the batch
reaching the `Path` constructor is the antithetic one), the batch used for
path generation in loop `i` is `np.concatenate((eps, -eps))`: the fresh
draw of loop `i` followed by its elementwise negation, stacked along the
paths axis, doubling the number of path rows; row `r` of the expansion is
row `r` of the fresh draw and row `paths + r` is its negation.  Moreover
the expansion is recomputed from the fresh draw of each loop: the batch of
loop `i` depends only on `draw i`, never on a previously expanded batch. -/
theorem C8_antithetic_expansion (draw drawB : ℕ → Mat) (i : ℕ)
    (hsame : draw i = drawB i) :
    loopEps draw true false i = draw i ++ negMat (draw i) ∧
    (loopEps draw true false i).length = 2 * (draw i).length ∧
    (∀ r, r < (draw i).length →
      (loopEps draw true false i).getD r [] = (draw i).getD r [] ∧
      (loopEps draw true false i).getD ((draw i).length + r) [] =
        List.map (fun x => -x) ((draw i).getD r [])) ∧
    loopEps draw true false i = loopEps drawB true false i := by
  refine ⟨rfl, ?_, ?_, ?_⟩
  · show (draw i ++ negMat (draw i)).length = 2 * (draw i).length
    simp [negMat]
    omega
  · intro r hr
    constructor
    · show (draw i ++ negMat (draw i)).getD r [] = (draw i).getD r []
      exact List.getD_append _ _ _ _ hr
    · show (draw i ++ negMat (draw i)).getD ((draw i).length + r) [] =
        List.map (fun x => -x) ((draw i).getD r [])
      rw [List.getD_append_right _ _ _ _ (Nat.le_add_right _ _),
        Nat.add_sub_cancel_left]
      have hr2 : r < (negMat (draw i)).length := by
        simpa [negMat] using hr
      rw [List.getD_eq_getElem _ _ hr2, List.getD_eq_getElem _ _ hr]
      simp [negMat]
  · simp only [loopEps, antiStep, stdStep, hsame]

/-- C8 witness: a concrete one-row draw. -/
theorem C8_witness :
    (fun _ : ℕ => [[(1 : ℝ)]]) 0 = (fun _ : ℕ => [[(1 : ℝ)]]) 0 ∧
    loopEps (fun _ : ℕ => [[(1 : ℝ)]]) true false 0 =
      [[(1 : ℝ)]] ++ negMat [[(1 : ℝ)]] ∧
    (loopEps (fun _ : ℕ => [[(1 : ℝ)]]) true false 0).length =
      2 * ([[(1 : ℝ)]] : Mat).length :=
  ⟨rfl,
    (C8_antithetic_expansion (fun _ => [[(1 : ℝ)]]) (fun _ => [[(1 : ℝ)]]) 0
      rfl).1,
    (C8_antithetic_expansion (fun _ => [[(1 : ℝ)]]) (fun _ => [[(1 : ℝ)]]) 0
      rfl).2.1⟩

/-- Helper: flattening commutes with an elementwise map on a batch. -/
theorem matFlat_map (f : ℝ → ℝ) (m : Mat) :
    matFlat (m.map (List.map f)) = (matFlat m).map f := by
  induction m with
  | nil => rfl
  | cons row rest ih =>
    simp only [matFlat, List.map_cons, List.flatten_cons, List.map_append]
    rw [← matFlat, ← matFlat, ih]

/-- Helper: sum of a list after subtracting a constant from every entry. -/
theorem sum_map_sub_const (l : List ℝ) (c : ℝ) :
    (l.map (fun x => x - c)).sum = l.sum - l.length * c := by
  induction l with
  | nil => simp
  | cons a tl ih =>
    simp only [List.map_cons, List.sum_cons, ih, List.length_cons]
    push_cast
    ring

/-- Helper: sum of a list after dividing every entry by a constant. -/
theorem sum_map_div_const (l : List ℝ) (c : ℝ) :
    (l.map (fun x => x / c)).sum = l.sum / c := by
  induction l with
  | nil => simp
  | cons a tl ih =>
    simp only [List.map_cons, List.sum_cons, ih]
    ring

/-- Helper: a batch whose standard deviation is nonzero is nonempty. -/
theorem matFlat_length_pos_of_std_ne (m : Mat) (hs : npStdM m ≠ 0) :
    0 < (matFlat m).length := by
  rcases Nat.eq_zero_or_pos (matFlat m).length with h0 | hpos
  · exfalso
    apply hs
    rw [List.length_eq_zero] at h0
    simp [npStdM, h0]
  · exact hpos

/-- Helper: after `standardize`, the aggregate sample mean is exactly 0
and the aggregate sample standard deviation is exactly 1, provided the
raw batch had nonzero standard deviation. -/
theorem standardize_moments (m : Mat) (hs : npStdM m ≠ 0) :
    npMeanM (standardize m) = 0 ∧ npStdM (standardize m) = 1 := by
  have hN : 0 < (matFlat m).length := matFlat_length_pos_of_std_ne m hs
  have hNR : ((matFlat m).length : ℝ) ≠ 0 := by positivity
  have hflat : matFlat (standardize m) =
      (matFlat m).map (fun x => (x - npMeanM m) / npStdM m) :=
    matFlat_map _ m
  have hq0 : 0 ≤ ((matFlat m).map (fun x => (x - npMeanM m) ^ 2)).sum := by
    apply List.sum_nonneg
    intro x hx
    rcases List.mem_map.mp hx with ⟨y, _, hy⟩
    rw [← hy]
    positivity
  have hqnn : 0 ≤ ((matFlat m).map (fun x => (x - npMeanM m) ^ 2)).sum /
      (((matFlat m).length : ℝ)) := div_nonneg hq0 (Nat.cast_nonneg _)
  have hsq : npStdM m ^ 2 =
      ((matFlat m).map (fun x => (x - npMeanM m) ^ 2)).sum /
        (((matFlat m).length : ℝ)) := Real.sq_sqrt hqnn
  have hsub : ((matFlat m).map (fun x => x - npMeanM m)).sum = 0 := by
    rw [sum_map_sub_const, npMeanM]
    field_simp
  have hmapped : ((matFlat m).map
      (fun x => (x - npMeanM m) / npStdM m)).sum = 0 := by
    have hcomp : (matFlat m).map (fun x => (x - npMeanM m) / npStdM m) =
        ((matFlat m).map (fun x => x - npMeanM m)).map
          (fun y => y / npStdM m) := by
      rw [List.map_map]
      rfl
    rw [hcomp, sum_map_div_const, hsub, zero_div]
  have hmean : npMeanM (standardize m) = 0 := by
    rw [npMeanM, hflat, hmapped, zero_div]
  refine ⟨hmean, ?_⟩
  have hflat2 : (matFlat (standardize m)).map
      (fun y => (y - npMeanM (standardize m)) ^ 2) =
      (matFlat m).map (fun x => (x - npMeanM m) ^ 2 / npStdM m ^ 2) := by
    rw [hflat, List.map_map]
    refine List.map_congr_left ?_
    intro x _
    simp only [Function.comp_apply, hmean, sub_zero, div_pow]
  have hlen2 : (matFlat (standardize m)).length = (matFlat m).length := by
    rw [hflat, List.length_map]
  have hcomp2 : (matFlat m).map
      (fun x => (x - npMeanM m) ^ 2 / npStdM m ^ 2) =
      ((matFlat m).map (fun x => (x - npMeanM m) ^ 2)).map
        (fun y => y / npStdM m ^ 2) := by
    rw [List.map_map]
    rfl
  rw [npStdM, hflat2, hlen2, hcomp2, sum_map_div_const, div_right_comm,
    ← hsq, div_self (pow_ne_zero 2 hs), Real.sqrt_one]

/-- C7: in every Monte Carlo loop with standardization enabled, the
transformed innovation batch handed to the `Path` constructor has
aggregate sample mean exactly 0 and aggregate sample standard deviation
exactly 1 (exact arithmetic), where the moments are taken over all entries
of the batch after any antithetic expansion, provided the batch entering
the standardization step has nonzero standard deviation. -/
theorem C7_standardization_moments (draw : ℕ → Mat) (anti : Bool) (i : ℕ)
    (hs : npStdM (antiStep anti (draw i)) ≠ 0) :
    npMeanM (loopEps draw anti true i) = 0 ∧
    npStdM (loopEps draw anti true i) = 1 :=
  standardize_moments (antiStep anti (draw i)) hs

/-- C7 witness: the batch `[[0, 2]]` has mean 1 and standard deviation 1,
so its standard deviation is nonzero and the standardized batch has
moments (0, 1). -/
theorem C7_witness :
    npStdM (antiStep false ((fun _ : ℕ => [[(0 : ℝ), 2]]) 0)) ≠ 0 ∧
    npMeanM (loopEps (fun _ : ℕ => [[(0 : ℝ), 2]]) false true 0) = 0 ∧
    npStdM (loopEps (fun _ : ℕ => [[(0 : ℝ), 2]]) false true 0) = 1 := by
  have hstd : npStdM (antiStep false ((fun _ : ℕ => [[(0 : ℝ), 2]]) 0)) = 1 := by
    show npStdM [[(0 : ℝ), 2]] = 1
    have hm : npMeanM [[(0 : ℝ), 2]] = 1 := by
      norm_num [npMeanM, matFlat]
    rw [npStdM, hm]
    norm_num [matFlat]
  have hs : npStdM (antiStep false ((fun _ : ℕ => [[(0 : ℝ), 2]]) 0)) ≠ 0 := by
    rw [hstd]
    exact one_ne_zero
  exact ⟨hs, (C7_standardization_moments (fun _ => [[(0 : ℝ), 2]]) false 0 hs).1,
    (C7_standardization_moments (fun _ => [[(0 : ℝ), 2]]) false 0 hs).2⟩

/-- Helper: the terminal payoff array is entrywise non-negative. -/
theorem payoff0_nonneg (z S u d K : ℝ) (n : ℕ) :
    ∀ i, 0 ≤ payoff0 z S u d K n i := by
  intro i
  unfold payoff0
  rw [abs_add_self_div_two]
  exact le_max_right _ _

/-- Helper: one American sweep preserves entrywise non-negativity when
`p ∈ [0,1]` and the per-step discount is non-negative. -/
theorem amerSweep_nonneg (p Df K d S u z : ℝ) (hp0 : 0 ≤ p) (hp1 : p ≤ 1)
    (hDf : 0 ≤ Df) (j : ℕ) (OV : ℕ → ℝ) (hOV : ∀ i, 0 ≤ OV i) :
    ∀ i, 0 ≤ amerSweep p Df K d S u z j OV i := by
  intro i
  unfold amerSweep
  by_cases hij : i ≤ j
  · rw [if_pos hij]
    refine le_max_of_le_right ?_
    have h1p : 0 ≤ 1 - p := by linarith
    exact mul_nonneg
      (add_nonneg (mul_nonneg hp0 (hOV (i + 1))) (mul_nonneg h1p (hOV i))) hDf
  · rw [if_neg hij]
    exact hOV i

/-- Helper: every intermediate state of the American backward induction
is entrywise non-negative. -/
theorem amerSeq_nonneg (p Df K d S u z : ℝ) (hp0 : 0 ≤ p) (hp1 : p ≤ 1)
    (hDf : 0 ≤ Df) (n : ℕ) (OV : ℕ → ℝ) (hOV : ∀ i, 0 ≤ OV i) :
    ∀ k i, 0 ≤ sweepSeq (amerSweep p Df K d S u z) n OV k i := by
  intro k
  induction k with
  | zero => exact hOV
  | succ k ih =>
    exact amerSweep_nonneg p Df K d S u z hp0 hp1 hDf _ _ ih

/-- C6: with `p ∈ [0,1]` and a positive per-step discount, the terminal
payoff array is entrywise non-negative, every intermediate state of the
American backward induction is entrywise non-negative, and after the
`k`-th sweep (which runs at step `j = n - k`) every updated node
`i ≤ n - k` dominates `max(intrinsic, 0)`, where the intrinsic value at
node `(i, j)` is `z*(S*u^i*d^(j-i) - K)`. -/
theorem C6_lattice_invariants (p Df K d S u z : ℝ) (n : ℕ)
    (hp0 : 0 ≤ p) (hp1 : p ≤ 1) (hDf : 0 < Df) :
    (∀ i, 0 ≤ payoff0 z S u d K n i) ∧
    (∀ k i, 0 ≤ sweepSeq (amerSweep p Df K d S u z) n
      (payoff0 z S u d K n) k i) ∧
    (∀ k i, 1 ≤ k → k ≤ n → i ≤ n - k →
      max (z * (S * u ^ i * d ^ (n - k - i) - K)) 0 ≤
        sweepSeq (amerSweep p Df K d S u z) n (payoff0 z S u d K n) k i) := by
  have hpay := payoff0_nonneg z S u d K n
  have hseq := amerSeq_nonneg p Df K d S u z hp0 hp1 hDf.le n
    (payoff0 z S u d K n) hpay
  refine ⟨hpay, hseq, ?_⟩
  intro k i hk1 hkn hi
  obtain ⟨k', rfl⟩ : ∃ k', k = k' + 1 := ⟨k - 1, by omega⟩
  have hj : n - 1 - k' = n - (k' + 1) := by omega
  show max _ 0 ≤ amerSweep p Df K d S u z (n - 1 - k')
    (sweepSeq (amerSweep p Df K d S u z) n (payoff0 z S u d K n) k') i
  rw [hj]
  unfold amerSweep
  rw [if_pos hi]
  have habs : ((i : ℤ) - ((n - (k' + 1) : ℕ) : ℤ)).natAbs =
      n - (k' + 1) - i := by omega
  rw [habs]
  refine max_le_max (le_refl _) ?_
  have h1p : 0 ≤ 1 - p := by linarith
  exact mul_nonneg
    (add_nonneg (mul_nonneg hp0 (hseq k' (i + 1)))
      (mul_nonneg h1p (hseq k' i))) hDf.le

/-- C6 witness: a concrete parameter set with `p = 1/2`, `Df = 1`. -/
theorem C6_witness :
    (0 : ℝ) ≤ 1 / 2 ∧ (1 / 2 : ℝ) ≤ 1 ∧ (0 : ℝ) < 1 ∧
    (∀ i, 0 ≤ payoff0 1 1 1 1 1 1 i) :=
  ⟨by norm_num, by norm_num, by norm_num,
    (C6_lattice_invariants (1 / 2) 1 1 1 1 1 1 1 (by norm_num) (by norm_num)
      (by norm_num)).1⟩

/-- Helper: with `p ∈ [0,1]` and a non-negative per-step discount, every
state of the European backward induction is dominated pointwise by the
corresponding state of the American backward induction started from the
same array. -/
theorem euroSeq_le_amerSeq (p Df K d S u z : ℝ) (hp0 : 0 ≤ p) (hp1 : p ≤ 1)
    (hDf : 0 ≤ Df) (n : ℕ) (OV : ℕ → ℝ) :
    ∀ k i, sweepSeq (euroSweep p Df) n OV k i ≤
      sweepSeq (amerSweep p Df K d S u z) n OV k i := by
  intro k
  induction k with
  | zero => intro i; exact le_refl _
  | succ k ih =>
    intro i
    show euroSweep p Df (n - 1 - k) _ i ≤ amerSweep p Df K d S u z (n - 1 - k) _ i
    unfold euroSweep amerSweep
    by_cases hij : i ≤ n - 1 - k
    · rw [if_pos hij, if_pos hij]
      refine le_max_of_le_right ?_
      have h1p : 0 ≤ 1 - p := by linarith
      refine mul_le_mul_of_nonneg_right ?_ hDf
      exact add_le_add (mul_le_mul_of_nonneg_left (ih (i + 1)) hp0)
        (mul_le_mul_of_nonneg_left (ih i) h1p)
    · rw [if_neg hij, if_neg hij]
      exact ih i

/-- Helper: with `sigma > 0`, `t > 0` and `n ≥ 1`, the up factor exceeds
1, the down factor lies in (0,1), and in particular `u - d > 0`: the
risk-neutral probability's denominator is nonzero. -/
theorem u_sub_d_pos (o : CRRBinomialTreeOption) (hsig : 0 < o.sigma)
    (ht : 0 < o.t) (hn : o.n ≠ 0) :
    0 < CRRBinomialTreeOption.u o - CRRBinomialTreeOption.d o := by
  have hdt : 0 < CRRBinomialTreeOption.dt o := by
    have : (0 : ℝ) < (o.n : ℝ) := by
      exact_mod_cast Nat.pos_of_ne_zero hn
    exact div_pos ht this
  have hsqrt : 0 < Real.sqrt (CRRBinomialTreeOption.dt o) :=
    Real.sqrt_pos.mpr hdt
  have hexp : (1 : ℝ) < CRRBinomialTreeOption.u o := by
    rw [CRRBinomialTreeOption.u, show (1 : ℝ) = Real.exp 0 from (Real.exp_zero).symm]
    exact Real.exp_lt_exp.mpr (by positivity)
  have hupos : 0 < CRRBinomialTreeOption.u o := by linarith
  have hd1 : CRRBinomialTreeOption.d o < 1 := by
    rw [CRRBinomialTreeOption.d, div_lt_one hupos]
    exact hexp
  rw [CRRBinomialTreeOption.d] at *
  linarith

/-- C5: for a valid parameter set (`sigma > 0`, `t > 0`, `n ≥ 1`, computed
risk-neutral probability in `[0,1]`), both `call()` and `put()` return
numeric prices for the `"american"` and `"european"` type strings, and the
American lattice price dominates the European one for the same
parameters, for both the call and the put. -/
theorem C5_american_ge_european (S K t r b sigma : ℝ) (n : ℕ)
    (hsig : 0 < sigma) (ht : 0 < t) (hn : 1 ≤ n)
    (hp0 : 0 ≤ CRRBinomialTreeOption.p
      (CRRBinomialTreeOption.mk S K t r b sigma "european" n))
    (hp1 : CRRBinomialTreeOption.p
      (CRRBinomialTreeOption.mk S K t r b sigma "european" n) ≤ 1) :
    CRRBinomialTreeOption.call
        (CRRBinomialTreeOption.mk S K t r b sigma "american" n) =
      Except.ok (PriceResult.price (CRRBinomialTreeOption.amerPriceCore
        (CRRBinomialTreeOption.mk S K t r b sigma "american" n) 1)) ∧
    CRRBinomialTreeOption.call
        (CRRBinomialTreeOption.mk S K t r b sigma "european" n) =
      Except.ok (PriceResult.price (CRRBinomialTreeOption.euroPriceCore
        (CRRBinomialTreeOption.mk S K t r b sigma "european" n) 1)) ∧
    CRRBinomialTreeOption.euroPriceCore
        (CRRBinomialTreeOption.mk S K t r b sigma "european" n) 1 ≤
      CRRBinomialTreeOption.amerPriceCore
        (CRRBinomialTreeOption.mk S K t r b sigma "american" n) 1 ∧
    CRRBinomialTreeOption.put
        (CRRBinomialTreeOption.mk S K t r b sigma "american" n) =
      Except.ok (PriceResult.price (CRRBinomialTreeOption.amerPriceCore
        (CRRBinomialTreeOption.mk S K t r b sigma "american" n) (-1))) ∧
    CRRBinomialTreeOption.put
        (CRRBinomialTreeOption.mk S K t r b sigma "european" n) =
      Except.ok (PriceResult.price (CRRBinomialTreeOption.euroPriceCore
        (CRRBinomialTreeOption.mk S K t r b sigma "european" n) (-1))) ∧
    CRRBinomialTreeOption.euroPriceCore
        (CRRBinomialTreeOption.mk S K t r b sigma "european" n) (-1) ≤
      CRRBinomialTreeOption.amerPriceCore
        (CRRBinomialTreeOption.mk S K t r b sigma "american" n) (-1) := by
  have hn0 : n ≠ 0 := by omega
  have hudA : 0 < CRRBinomialTreeOption.u
      (CRRBinomialTreeOption.mk S K t r b sigma "american" n) -
      CRRBinomialTreeOption.d
      (CRRBinomialTreeOption.mk S K t r b sigma "american" n) :=
    u_sub_d_pos _ hsig ht hn0
  have hudE : 0 < CRRBinomialTreeOption.u
      (CRRBinomialTreeOption.mk S K t r b sigma "european" n) -
      CRRBinomialTreeOption.d
      (CRRBinomialTreeOption.mk S K t r b sigma "european" n) :=
    u_sub_d_pos _ hsig ht hn0
  have hDf : (0 : ℝ) ≤ CRRBinomialTreeOption.Df
      (CRRBinomialTreeOption.mk S K t r b sigma "european" n) :=
    (Real.exp_pos _).le
  have hcmp := fun z => euroSeq_le_amerSeq
    (CRRBinomialTreeOption.p (CRRBinomialTreeOption.mk S K t r b sigma "european" n))
    (CRRBinomialTreeOption.Df (CRRBinomialTreeOption.mk S K t r b sigma "european" n))
    K (CRRBinomialTreeOption.d (CRRBinomialTreeOption.mk S K t r b sigma "european" n))
    S (CRRBinomialTreeOption.u (CRRBinomialTreeOption.mk S K t r b sigma "european" n))
    z hp0 hp1 hDf n
    (payoff0 z S
      (CRRBinomialTreeOption.u (CRRBinomialTreeOption.mk S K t r b sigma "european" n))
      (CRRBinomialTreeOption.d (CRRBinomialTreeOption.mk S K t r b sigma "european" n))
      K n) n 0
  refine ⟨?_, ?_, hcmp 1, ?_, ?_, hcmp (-1)⟩ <;>
    simp [CRRBinomialTreeOption.call, CRRBinomialTreeOption.put,
      CRRBinomialTreeOption._calc_price, hn0, hudA.ne', hudE.ne']

/-- C5 witness: at `S = K = 1, t = 1, r = b = 0, sigma = 1, n = 1` the
risk-neutral probability `(1 - 1/e)/(e - 1/e)` lies in `[0,1]` and the
American price dominates the European price. -/
theorem C5_witness :
    0 ≤ CRRBinomialTreeOption.p
      (CRRBinomialTreeOption.mk 1 1 1 0 0 1 "european" 1) ∧
    CRRBinomialTreeOption.p
      (CRRBinomialTreeOption.mk 1 1 1 0 0 1 "european" 1) ≤ 1 ∧
    CRRBinomialTreeOption.euroPriceCore
        (CRRBinomialTreeOption.mk 1 1 1 0 0 1 "european" 1) 1 ≤
      CRRBinomialTreeOption.amerPriceCore
        (CRRBinomialTreeOption.mk 1 1 1 0 0 1 "american" 1) 1 := by
  have hpform : CRRBinomialTreeOption.p
      (CRRBinomialTreeOption.mk 1 1 1 0 0 1 "european" 1) =
      (1 - 1 / Real.exp 1) / (Real.exp 1 - 1 / Real.exp 1) := by
    simp [CRRBinomialTreeOption.p, CRRBinomialTreeOption.d,
      CRRBinomialTreeOption.u, CRRBinomialTreeOption.dt, Real.sqrt_one]
  have he1 : (1 : ℝ) < Real.exp 1 := by
    have := Real.add_one_le_exp 1
    linarith
  have hepos : (0 : ℝ) < Real.exp 1 := Real.exp_pos 1
  have hdlt : 1 / Real.exp 1 < 1 := by
    rw [div_lt_one hepos]
    exact he1
  have hdpos : (0 : ℝ) < 1 / Real.exp 1 := by positivity
  have hden : (0 : ℝ) < Real.exp 1 - 1 / Real.exp 1 := by linarith
  have hp0 : 0 ≤ CRRBinomialTreeOption.p
      (CRRBinomialTreeOption.mk 1 1 1 0 0 1 "european" 1) := by
    rw [hpform]
    apply div_nonneg <;> linarith
  have hp1 : CRRBinomialTreeOption.p
      (CRRBinomialTreeOption.mk 1 1 1 0 0 1 "european" 1) ≤ 1 := by
    rw [hpform, div_le_one hden]
    linarith
  exact ⟨hp0, hp1,
    (C5_american_ge_european 1 1 1 0 0 1 1 one_pos one_pos (le_refl 1)
      hp0 hp1).2.2.1⟩

/-- Helper: one spec-style backward step shrinks the array by one. -/
theorem specStep_length (p Df : ℝ) :
    ∀ l : List ℝ, (specStep p Df l).length = l.length - 1
  | [] => rfl
  | [_] => rfl
  | x :: y :: rest => by
    have ih := specStep_length p Df (y :: rest)
    show (_ :: specStep p Df (y :: rest)).length = _
    simp only [List.length_cons] at ih ⊢
    omega

/-- Helper: entry `i` of one spec-style backward step is the discounted
risk-neutral combination of entries `i` and `i+1`. -/
theorem specStep_getD (p Df : ℝ) :
    ∀ (l : List ℝ) (i : ℕ), i + 1 < l.length →
      (specStep p Df l).getD i 0 =
        Df * (p * l.getD (i + 1) 0 + (1 - p) * l.getD i 0)
  | [], i, h => by simp at h
  | [_], i, h => by simp at h
  | x :: y :: rest, 0, _ => rfl
  | x :: y :: rest, i + 1, h => by
    have hlt : i + 1 < (y :: rest).length := by
      simp only [List.length_cons] at h ⊢
      omega
    have ih := specStep_getD p Df (y :: rest) i hlt
    show ((Df * (p * y + (1 - p) * x)) :: specStep p Df (y :: rest)).getD
        (i + 1) 0 = _
    rw [List.getD_cons_succ, List.getD_cons_succ, List.getD_cons_succ]
    exact ih

/-- Helper: after `k` spec-style steps the array has length `n + 1 - k`
and its entries agree with the state of the source's in-place backward
induction after `k` sweeps. -/
theorem specStep_iterate_eq_sweepSeq (p Df : ℝ) (n : ℕ) (OV : ℕ → ℝ)
    (L0 : List ℝ) (hlen : L0.length = n + 1)
    (hget : ∀ i, i < n + 1 → L0.getD i 0 = OV i) :
    ∀ k, k ≤ n → ((specStep p Df)^[k] L0).length = n + 1 - k ∧
      (∀ i, i < n + 1 - k → ((specStep p Df)^[k] L0).getD i 0 =
        sweepSeq (euroSweep p Df) n OV k i) := by
  intro k
  induction k with
  | zero =>
    intro _
    exact ⟨by simpa using hlen, fun i hi => hget i (by simpa using hi)⟩
  | succ k ih =>
    intro hk1
    obtain ⟨ihlen, ihget⟩ := ih (by omega)
    constructor
    · rw [Function.iterate_succ_apply', specStep_length, ihlen]
      omega
    · intro i hi
      rw [Function.iterate_succ_apply']
      have hi1 : i + 1 < ((specStep p Df)^[k] L0).length := by
        rw [ihlen]
        omega
      rw [specStep_getD p Df _ i hi1, ihget (i + 1) (by omega),
        ihget i (by omega)]
      show _ = euroSweep p Df (n - 1 - k)
        (sweepSeq (euroSweep p Df) n OV k) i
      unfold euroSweep
      rw [if_pos (by omega : i ≤ n - 1 - k)]
      ring

/-- Helper: the specification's European lattice algorithm computes the
same number as the source's `_euro` backward induction inside
`_calc_price`, for every parameter set and payoff sign. -/
theorem specEuroPrice_eq_euroPriceCore (S K t r b sigma : ℝ) (ty : String)
    (n : ℕ) (z : ℝ) :
    specEuroPrice S K t r b sigma n z =
      CRRBinomialTreeOption.euroPriceCore
        (CRRBinomialTreeOption.mk S K t r b sigma ty n) z := by
  have hget : ∀ i, i < n + 1 →
      (List.ofFn (fun i : Fin (n + 1) =>
        max (z * (S *
          CRRBinomialTreeOption.u (CRRBinomialTreeOption.mk S K t r b sigma ty n) ^ (i : ℕ) *
          CRRBinomialTreeOption.d (CRRBinomialTreeOption.mk S K t r b sigma ty n) ^ (n - (i : ℕ)) - K)) 0)).getD i 0 =
      payoff0 z S
        (CRRBinomialTreeOption.u (CRRBinomialTreeOption.mk S K t r b sigma ty n))
        (CRRBinomialTreeOption.d (CRRBinomialTreeOption.mk S K t r b sigma ty n))
        K n i := by
    intro i hi
    have hi' : i < (List.ofFn (fun i : Fin (n + 1) =>
        max (z * (S *
          CRRBinomialTreeOption.u (CRRBinomialTreeOption.mk S K t r b sigma ty n) ^ (i : ℕ) *
          CRRBinomialTreeOption.d (CRRBinomialTreeOption.mk S K t r b sigma ty n) ^ (n - (i : ℕ)) - K)) 0)).length := by
      rw [List.length_ofFn]
      exact hi
    rw [List.getD_eq_getElem _ _ hi', List.getElem_ofFn]
    unfold payoff0
    rw [abs_add_self_div_two]
  obtain ⟨hlen', hget'⟩ := specStep_iterate_eq_sweepSeq
    (CRRBinomialTreeOption.p (CRRBinomialTreeOption.mk S K t r b sigma ty n))
    (CRRBinomialTreeOption.Df (CRRBinomialTreeOption.mk S K t r b sigma ty n))
    n
    (payoff0 z S
      (CRRBinomialTreeOption.u (CRRBinomialTreeOption.mk S K t r b sigma ty n))
      (CRRBinomialTreeOption.d (CRRBinomialTreeOption.mk S K t r b sigma ty n))
      K n)
    _ (List.length_ofFn _) hget n le_rfl
  show ((specStep
      (CRRBinomialTreeOption.p (CRRBinomialTreeOption.mk S K t r b sigma ty n))
      (CRRBinomialTreeOption.Df (CRRBinomialTreeOption.mk S K t r b sigma ty n)))^[n]
      (List.ofFn (fun i : Fin (n + 1) =>
        max (z * (S *
          CRRBinomialTreeOption.u (CRRBinomialTreeOption.mk S K t r b sigma ty n) ^ (i : ℕ) *
          CRRBinomialTreeOption.d (CRRBinomialTreeOption.mk S K t r b sigma ty n) ^ (n - (i : ℕ)) - K)) 0))).headD 0 =
    sweepSeq (euroSweep
      (CRRBinomialTreeOption.p (CRRBinomialTreeOption.mk S K t r b sigma ty n))
      (CRRBinomialTreeOption.Df (CRRBinomialTreeOption.mk S K t r b sigma ty n))) n
      (payoff0 z S
        (CRRBinomialTreeOption.u (CRRBinomialTreeOption.mk S K t r b sigma ty n))
        (CRRBinomialTreeOption.d (CRRBinomialTreeOption.mk S K t r b sigma ty n))
        K n) n 0
  rw [List.headD_eq_getD_zero, hget' 0 (by omega)]

/-- C4: for every input with `sigma > 0`, `t > 0`, `n ≥ 1`, the European
lattice price returned by `call()` (`z = +1`) and `put()` (`z = -1`)
equals the result of the specified algorithm: `dt = t/n`,
`u = exp(sigma*sqrt(dt))`, `d = 1/u`, `p = (exp(b*dt) - d)/(u - d)`,
per-step discount `exp(-r*dt)`, terminal payoff
`max(z*(S*u^i*d^(n-i) - K), 0)`, backward induction
`value[i] = discount*(p*value[i+1] + (1-p)*value[i])`, result
`value[0]`. -/
theorem C4_european_lattice_algorithm (S K t r b sigma : ℝ) (n : ℕ)
    (hn : 1 ≤ n) (hsig : 0 < sigma) (ht : 0 < t) :
    CRRBinomialTreeOption.call
        (CRRBinomialTreeOption.mk S K t r b sigma "european" n) =
      Except.ok (PriceResult.price (specEuroPrice S K t r b sigma n 1)) ∧
    CRRBinomialTreeOption.put
        (CRRBinomialTreeOption.mk S K t r b sigma "european" n) =
      Except.ok (PriceResult.price (specEuroPrice S K t r b sigma n (-1))) := by
  have hn0 : n ≠ 0 := by omega
  have hud := u_sub_d_pos
    (CRRBinomialTreeOption.mk S K t r b sigma "european" n) hsig ht hn0
  constructor <;>
    simp [CRRBinomialTreeOption.call, CRRBinomialTreeOption.put,
      CRRBinomialTreeOption._calc_price, hn0, hud.ne',
      specEuroPrice_eq_euroPriceCore S K t r b sigma "european" n]

/-- C4 witness: concrete well-posed parameters. -/
theorem C4_witness :
    (1 : ℕ) ≤ 1 ∧ (0 : ℝ) < 1 ∧
    CRRBinomialTreeOption.call
        (CRRBinomialTreeOption.mk 1 1 1 0 0 1 "european" 1) =
      Except.ok (PriceResult.price (specEuroPrice 1 1 1 0 0 1 1 1)) :=
  ⟨le_refl 1, one_pos,
    (C4_european_lattice_algorithm 1 1 1 0 0 1 1 (le_refl 1) one_pos
      one_pos).1⟩
